import Mathlib

/-!
Shallow embedding of `word_count_from_json.py`, a pipeline that cleans
Chinese text, segments it into words, counts word frequencies, enriches
each distinct word with a translation and a pinyin romanization, and
serializes the result together with summary metadata.

External libraries are modelled as function parameters, following the
capability interfaces of the specification: `seg` stands for
`jieba.lcut`, `rom` for single-character `pypinyin` TONE3 conversion,
and `translate` for one awaited `googletrans` call on a newline-joined
batch (`none` models a raised exception).
-/

namespace WordCount

/-- Unicode code point. -/
abbrev Cp := Nat

/-- A Python string, modelled as its list of code points. -/
abbrev PyStr := List Cp

/-- The character set matched by the regex class `\s` in Python (equal to
the set accepted by `str.isspace`): ASCII control whitespace, and the
Unicode space characters. -/
def isSpace (c : Cp) : Bool :=
  (9 ≤ c && c ≤ 13) || (28 ≤ c && c ≤ 32) || c == 0x85 || c == 0xA0 ||
  c == 0x1680 || (0x2000 ≤ c && c ≤ 0x200A) || c == 0x2028 || c == 0x2029 ||
  c == 0x202F || c == 0x205F || c == 0x3000

/-- ASCII letter, the regex class `A-Za-z`. -/
def isAsciiLetter (c : Cp) : Bool := (65 ≤ c && c ≤ 90) || (97 ≤ c && c ≤ 122)

/-- ASCII digit, the regex class `0-9`. -/
def isAsciiDigit (c : Cp) : Bool := 48 ≤ c && c ≤ 57

/-- CJK ideograph test: the character range `一-鿿` of the `clean_text`
regex is U+4E00 to U+9FFF, which is exactly the range `[一-鿿]`
used by the token filter of `segment_text` and by the pinyin synthesis. -/
def isHanzi (c : Cp) : Bool := 0x4E00 ≤ c && c ≤ 0x9FFF

/-- The character class kept by `clean_text`: the substitution
`re.sub(r'[^一-鿿A-Za-z0-9\s]', ..)` deletes the complement of this set. -/
def keepChar (c : Cp) : Bool := isHanzi c || isAsciiLetter c || isAsciiDigit c || isSpace c

/-- The function `clean_text`: replace every character outside the kept
class with the empty string, i.e. delete it. -/
def clean_text (text : PyStr) : PyStr := text.filter keepChar

/-- Python `str.strip`: remove leading and trailing whitespace. -/
def strip (s : PyStr) : PyStr := ((s.dropWhile isSpace).reverse.dropWhile isSpace).reverse

/-- Truth of `re.match(r'[一-鿿]', word)`: the match is anchored at
the start of the string, so it succeeds exactly when the word is nonempty
and its first character is a CJK ideograph. -/
def startsWithCJK : PyStr → Bool
  | [] => false
  | c :: _ => isHanzi c

/-- The token filter of `segment_text`:
`word.strip() and re.match(r'[一-鿿]', word)`. -/
def keepToken (w : PyStr) : Bool := !(strip w).isEmpty && startsWithCJK w

/-- The token stream accumulated in `all_words` by `segment_text`: each
text is cleaned, segmented by the external segmenter, and filtered. -/
def filtered_tokens (seg : PyStr → List PyStr) (texts : List PyStr) : List PyStr :=
  (texts.map (fun t => (seg (clean_text t)).filter keepToken)).flatten

/-- Keys of a Python `Counter` built from a list: the distinct elements in
order of first occurrence (dict insertion order). -/
def dedupFirst : List PyStr → List PyStr
  | [] => []
  | x :: xs => x :: (dedupFirst xs).filter (fun y => y != x)

/-- The function `segment_text`: clean, segment, filter, then count
occurrences with `Counter(all_words)`.  The counter is modelled as an
association sequence whose keys are the distinct tokens in first-occurrence
order, each with its number of occurrences. -/
def segment_text (seg : PyStr → List PyStr) (texts : List PyStr) : List (PyStr × Nat) :=
  (dedupFirst (filtered_tokens seg texts)).map
    (fun w => (w, (filtered_tokens seg texts).count w))

/-- A CEDICT dictionary entry as exposed by `cedict_utils`; the script
reads the fields `meanings` (a list of glosses) and `pinyin`. -/
structure CedictEntry where
  meanings : List PyStr
  pinyin : PyStr
deriving DecidableEq

/-- The dictionary built by `load_cedict_dictionary`: a mapping from
simplified headword to entry; `dictionary.get w` is application at `w`. -/
abbrev CedictDict := PyStr → Option CedictEntry

/-- Python `sep.join(parts)`. -/
def joinSep (sep : PyStr) : List PyStr → PyStr
  | [] => []
  | [x] => x
  | x :: y :: xs => x ++ sep ++ joinSep sep (y :: xs)

/-- The separator `", "` used to join meanings. -/
def sepComma : PyStr := [44, 32]

/-- The separator `" + "` used to join per-character translations. -/
def sepPlus : PyStr := [32, 43, 32]

/-- The separator `" "` used to join per-character pinyin. -/
def sepSpace : PyStr := [32]

/-- The separator `"\n"` used to join a translation batch. -/
def sepNewline : PyStr := [10]

/-- The placeholder `"?"` for characters missing from the dictionary. -/
def unknownChar : PyStr := [63]

/-- The function `derive_translation_from_components`: for each character
of the word, its entry's meanings joined by `", "` if the single-character
string is a headword, else the placeholder; join the results by `" + "`. -/
def derive_translation_from_components (word : PyStr) (dictionary : CedictDict) : PyStr :=
  joinSep sepPlus (word.map (fun char =>
    match dictionary [char] with
    | some char_entry => joinSep sepComma char_entry.meanings
    | none => unknownChar))

/-- Fuel-indexed batch slicing; with fuel at least the length of the list
it computes the slices `l[0:100], l[100:200], …` of the batch loop. -/
def toBatchesF : Nat → List PyStr → List (List PyStr)
  | _, [] => []
  | 0, l => [l]
  | fuel + 1, x :: xs => ((x :: xs).take 100) :: toBatchesF fuel ((x :: xs).drop 100)

/-- The batches `missing_words[i:i + batch_size]` visited by the loop of
`fetch_missing_translations`, with `batch_size = 100`. -/
def toBatches (l : List PyStr) : List (List PyStr) := toBatchesF l.length l

/-- The batch loop of `fetch_missing_translations`: each batch is joined
with newlines and sent as one `translate` call; on success the reply text
is split on newline and zipped positionally with the batch, recording one
pair per word; on an exception (`none`) the batch records nothing and the
loop continues with the remaining batches. -/
def fetchBatches (translate : PyStr → Option PyStr) : List (List PyStr) → List (PyStr × PyStr)
  | [] => []
  | batch :: rest =>
    (match translate (joinSep sepNewline batch) with
     | some text => batch.zip (text.splitOn 10)
     | none => []) ++ fetchBatches translate rest

/-- The function `fetch_missing_translations`: slice the missing words
into batches of 100 and run the batch loop. -/
def fetch_missing_translations (translate : PyStr → Option PyStr)
    (missing : List PyStr) : List (PyStr × PyStr) :=
  fetchBatches translate (toBatches missing)

/-- Lookup in the accumulated `translations` dict: assignments happen in
recording order and later ones overwrite earlier ones, so the last
recorded pair for a key wins. -/
def transGet : List (PyStr × PyStr) → PyStr → Option PyStr
  | [], _ => none
  | p :: rest, w =>
    match transGet rest w with
    | some t => some t
    | none => if p.1 = w then some p.2 else none

/-- One record of the output `data` array. -/
structure Entry where
  Word : PyStr
  Count : Nat
  Translation : PyStr
  Pinyin : PyStr
deriving DecidableEq

/-- The words queued for remote translation by
`add_translations_and_pinyin`: keys of the word-count table that are not
dictionary headwords, in iteration order. -/
def missing_words (word_counts : List (PyStr × Nat)) (dictionary : CedictDict) : List PyStr :=
  (word_counts.map Prod.fst).filter (fun w => (dictionary w).isNone)

/-- The body of the enrichment loop of `add_translations_and_pinyin` for
one word: on a dictionary hit use the entry's joined meanings and stored
pinyin; otherwise use the fetched remote translation if present, with the
per-character derivation as the default, and synthesize pinyin by
romanizing each CJK character of the word and joining with spaces. -/
def enrichEntry (dictionary : CedictDict) (missing_translations : PyStr → Option PyStr)
    (rom : Cp → PyStr) (word : PyStr) (count : Nat) : Entry :=
  match dictionary word with
  | some entry =>
      { Word := word, Count := count,
        Translation := joinSep sepComma entry.meanings,
        Pinyin := entry.pinyin }
  | none =>
      { Word := word, Count := count,
        Translation := (missing_translations word).getD
          (derive_translation_from_components word dictionary),
        Pinyin := joinSep sepSpace ((word.filter isHanzi).map rom) }

/-- Insertion step of a stable descending sort by count: the new entry
moves past entries of strictly larger count and stops in front of the
first entry whose count is not larger, hence after all earlier ties. -/
def insertByCount (e : Entry) : List Entry → List Entry
  | [] => [e]
  | x :: xs => if e.Count < x.Count then x :: insertByCount e xs else e :: x :: xs

/-- Python `sorted(enhanced_data, key=lambda x: x["Count"], reverse=True)`:
a stable sort by count descending.  Any two stable sorts by the same key
agree, so stable insertion sort models Python's sort extensionally. -/
def sortByCountDesc : List Entry → List Entry
  | [] => []
  | x :: xs => insertByCount x (sortByCountDesc xs)

/-- The function `add_translations_and_pinyin`: collect the dictionary
misses, fetch remote translations for them in batches, enrich every word
of the word-count table in iteration order, and sort by count
descending.  (When no word is missing the source skips the fetch; the
fetch of an empty list returns the empty dict, which is the same.) -/
def add_translations_and_pinyin (translate : PyStr → Option PyStr) (rom : Cp → PyStr)
    (word_counts : List (PyStr × Nat)) (dictionary : CedictDict) : List Entry :=
  sortByCountDesc (word_counts.map (fun p =>
    enrichEntry dictionary
      (transGet (fetch_missing_translations translate (missing_words word_counts dictionary)))
      rom p.1 p.2))

/-- The JSON document written by `save_enhanced_data`. -/
structure OutputDoc where
  total_words : Nat
  unique_words : Nat
  data : List Entry
deriving DecidableEq

/-- The function `save_enhanced_data`: metadata totals from the word-count
table, and the enriched entries as the `data` array. -/
def save_enhanced_data (enhanced_data : List Entry) (word_counts : List (PyStr × Nat)) : OutputDoc :=
  { total_words := (word_counts.map Prod.snd).sum,
    unique_words := word_counts.length,
    data := enhanced_data }

/-- The pipeline of `main` after loading the input and the dictionary:
segment and count, enrich, save. -/
def run_pipeline (seg : PyStr → List PyStr) (translate : PyStr → Option PyStr)
    (rom : Cp → PyStr) (texts : List PyStr) (dictionary : CedictDict) : OutputDoc :=
  save_enhanced_data
    (add_translations_and_pinyin translate rom (segment_text seg texts) dictionary)
    (segment_text seg texts)

/-- The specification's character class for the cleaner, written from its
words with the CJK range the code actually uses (U+4E00 to U+9FFF):
CJK ideographs, ASCII letters, ASCII digits, and whitespace. -/
def keepCharSpec (c : Cp) : Bool :=
  (0x4E00 ≤ c && c ≤ 0x9FFF) || (65 ≤ c && c ≤ 90) || (97 ≤ c && c ≤ 122) ||
  (48 ≤ c && c ≤ 57) || isSpace c

/-! ## Concrete instances used to exercise the theorems -/

/-- A sample corpus: the single text `你好` (U+4F60 U+597D). -/
def texts0 : List PyStr := [[0x4F60, 0x597D]]

/-- A sample segmenter that returns its input as one token. -/
def seg0 : PyStr → List PyStr := fun s => [s]

/-- A sample romanizer mapping every character to `a`. -/
def rom0 : Cp → PyStr := fun _ => [97]

/-- A sample translator whose every call raises (returns `none`). -/
def trans0 : PyStr → Option PyStr := fun _ => none

/-- A sample dictionary entry with one meaning `hi` and pinyin `ni`. -/
def entry0 : CedictEntry := ⟨[[104, 105]], [110, 105]⟩

/-- A sample dictionary containing only the headword `你好`. -/
def dict0 : CedictDict := fun w => if w = [0x4F60, 0x597D] then some entry0 else none

/-- The empty dictionary. -/
def dictEmpty : CedictDict := fun _ => none

/-- The output entry produced for `你好` under `dict0`. -/
def ent0 : Entry := ⟨[0x4F60, 0x597D], 1, [104, 105], [110, 105]⟩

/-- The output entry produced for `你好` under the empty dictionary and the
failing translator: per-character fallback `? + ?`, pinyin `a a`. -/
def ent1 : Entry := ⟨[0x4F60, 0x597D], 1, [63, 32, 43, 32, 63], [97, 32, 97]⟩

/-! ## Helper lemmas about the cleaner and the token stream -/

theorem keepChar_eq_spec : keepChar = keepCharSpec := by
  funext c
  simp [keepChar, keepCharSpec, isHanzi, isAsciiLetter, isAsciiDigit, Bool.or_assoc]

theorem mem_dedupFirst {a : PyStr} : ∀ {l : List PyStr}, a ∈ dedupFirst l ↔ a ∈ l
  | [] => by simp [dedupFirst]
  | x :: xs => by
    by_cases hax : a = x
    · subst hax
      simp [dedupFirst]
    · simp [dedupFirst, List.mem_filter, @mem_dedupFirst a xs, hax, bne_iff_ne]

theorem nodup_dedupFirst : ∀ l : List PyStr, (dedupFirst l).Nodup
  | [] => by simp [dedupFirst]
  | x :: xs => by
    refine List.nodup_cons.mpr ⟨?_, (nodup_dedupFirst xs).filter _⟩
    intro hx
    have := (List.mem_filter.mp hx).2
    simp at this

theorem segment_text_map_fst (seg : PyStr → List PyStr) (texts : List PyStr) :
    (segment_text seg texts).map Prod.fst = dedupFirst (filtered_tokens seg texts) := by
  simp [segment_text, List.map_map, Function.comp_def]

/-! ## Claims about the cleaner -/

/-- C9: the cleaner is idempotent: for every input string, applying
`clean_text` twice yields the same result as applying it once. -/
theorem C9_cleaner_idempotent (text : PyStr) :
    clean_text (clean_text text) = clean_text text := by
  simp [clean_text, List.filter_filter]

/-- C4 counterexample: the claim says every character in the range U+4E00
through U+FAFF is kept, but `clean_text` deletes U+F900 (which lies in
that claimed range): on the input consisting of the single character
U+F900 the output is empty, not the input as the claimed character class
would require. -/
theorem C4_counterexample :
    clean_text [0xF900] ≠ [0xF900].filter (fun c =>
      (0x4E00 ≤ c && c ≤ 0xFAFF) || isAsciiLetter c || isAsciiDigit c || isSpace c) := by
  decide

/-- C4 (amended): for every input string, the cleaner's output consists
exactly of those characters of the input that are CJK ideographs in the
range U+4E00 through U+9FFF, ASCII letters, ASCII digits, or whitespace,
in their original order (a sublist of the input: characters are deleted,
not replaced), and empty input yields empty output. -/
theorem C4_cleaner_characterization (text : PyStr) :
    clean_text text = text.filter keepCharSpec
    ∧ (clean_text text).Sublist text
    ∧ clean_text ([] : PyStr) = [] := by
  refine ⟨?_, List.filter_sublist _, rfl⟩
  simp [clean_text, keepChar_eq_spec]

/-! ## Claims about the tokenizer's filtered output -/

/-- C8: every token of the filtered output (and hence every key of the
word-count table, which is a subset of the tokens) is non-empty, is not
whitespace-only, and starts with a CJK ideograph in U+4E00 to U+9FFF. -/
theorem C8_token_filter (seg : PyStr → List PyStr) (texts : List PyStr) (w : PyStr)
    (hw : w ∈ filtered_tokens seg texts ∨ w ∈ (segment_text seg texts).map Prod.fst) :
    w ≠ [] ∧ strip w ≠ [] ∧ startsWithCJK w = true := by
  have htok : w ∈ filtered_tokens seg texts := by
    rcases hw with h | h
    · exact h
    · rw [segment_text_map_fst] at h
      exact mem_dedupFirst.mp h
  have hkeep : keepToken w = true := by
    rcases List.mem_flatten.mp htok with ⟨l, hl, hwl⟩
    rcases List.mem_map.mp hl with ⟨t, -, rfl⟩
    exact (List.mem_filter.mp hwl).2
  have hkeep' : (strip w).isEmpty = false ∧ startsWithCJK w = true := by
    simpa [keepToken] using hkeep
  obtain ⟨hstrip, hcjk⟩ := hkeep'
  refine ⟨?_, ?_, hcjk⟩
  · intro h
    subst h
    simp [startsWithCJK] at hcjk
  · intro h
    rw [h] at hstrip
    simp [List.isEmpty] at hstrip

/-! ## Helper lemmas about the stable descending sort -/

theorem insertByCount_perm (e : Entry) : ∀ l : List Entry, (insertByCount e l).Perm (e :: l)
  | [] => List.Perm.refl _
  | x :: xs => by
    by_cases h : e.Count < x.Count
    · simp only [insertByCount, if_pos h]
      exact (List.Perm.cons x (insertByCount_perm e xs)).trans (List.Perm.swap e x xs)
    · simp only [insertByCount, if_neg h]
      exact List.Perm.refl _

theorem sortByCountDesc_perm : ∀ l : List Entry, (sortByCountDesc l).Perm l
  | [] => List.Perm.refl _
  | x :: xs =>
    (insertByCount_perm x (sortByCountDesc xs)).trans (List.Perm.cons x (sortByCountDesc_perm xs))

theorem mem_insertByCount {b e : Entry} {l : List Entry} :
    b ∈ insertByCount e l ↔ b = e ∨ b ∈ l := by
  rw [(insertByCount_perm e l).mem_iff]
  simp

theorem pairwise_insertByCount {e : Entry} : ∀ {l : List Entry},
    l.Pairwise (fun a b => b.Count ≤ a.Count) →
    (insertByCount e l).Pairwise (fun a b => b.Count ≤ a.Count)
  | [], _ => by simp [insertByCount]
  | x :: xs, h => by
    rcases List.pairwise_cons.mp h with ⟨hx, hxs⟩
    by_cases hlt : e.Count < x.Count
    · simp only [insertByCount, if_pos hlt]
      refine List.pairwise_cons.mpr ⟨?_, pairwise_insertByCount hxs⟩
      intro b hb
      rcases mem_insertByCount.mp hb with rfl | hbxs
      · exact Nat.le_of_lt hlt
      · exact hx b hbxs
    · simp only [insertByCount, if_neg hlt]
      refine List.pairwise_cons.mpr ⟨?_, h⟩
      intro b hb
      rcases List.mem_cons.mp hb with rfl | hbxs
      · exact Nat.le_of_not_lt hlt
      · exact Nat.le_trans (hx b hbxs) (Nat.le_of_not_lt hlt)

theorem sorted_sortByCountDesc : ∀ l : List Entry,
    (sortByCountDesc l).Pairwise (fun a b => b.Count ≤ a.Count)
  | [] => by simp [sortByCountDesc]
  | x :: xs => pairwise_insertByCount (sorted_sortByCountDesc xs)

theorem filter_insertByCount (e : Entry) (n : Nat) : ∀ l : List Entry,
    (insertByCount e l).filter (fun a => a.Count == n) =
      if e.Count = n then e :: l.filter (fun a => a.Count == n)
      else l.filter (fun a => a.Count == n)
  | [] => by
    by_cases h : e.Count = n <;> simp [insertByCount, h]
  | x :: xs => by
    by_cases hlt : e.Count < x.Count
    · simp only [insertByCount, if_pos hlt]
      by_cases hx : x.Count = n
      · have hen : ¬ e.Count = n := by omega
        simp [List.filter_cons, hx, filter_insertByCount e n xs, hen]
      · simp [List.filter_cons, hx, filter_insertByCount e n xs]
    · simp only [insertByCount, if_neg hlt]
      by_cases hen : e.Count = n <;> simp [List.filter_cons, hen]

theorem filter_sortByCountDesc (n : Nat) : ∀ l : List Entry,
    (sortByCountDesc l).filter (fun a => a.Count == n) = l.filter (fun a => a.Count == n)
  | [] => rfl
  | x :: xs => by
    rw [sortByCountDesc, filter_insertByCount x n (sortByCountDesc xs),
      filter_sortByCountDesc n xs]
    by_cases hx : x.Count = n <;> simp [List.filter_cons, hx]

/-! ## Helper lemmas about the enrichment -/

theorem enrichEntry_Word (dictionary : CedictDict) (mt : PyStr → Option PyStr)
    (rom : Cp → PyStr) (word : PyStr) (count : Nat) :
    (enrichEntry dictionary mt rom word count).Word = word := by
  cases h : dictionary word <;> simp [enrichEntry, h]

theorem enrichEntry_Count (dictionary : CedictDict) (mt : PyStr → Option PyStr)
    (rom : Cp → PyStr) (word : PyStr) (count : Nat) :
    (enrichEntry dictionary mt rom word count).Count = count := by
  cases h : dictionary word <;> simp [enrichEntry, h]

theorem run_pipeline_data (seg : PyStr → List PyStr) (translate : PyStr → Option PyStr)
    (rom : Cp → PyStr) (texts : List PyStr) (dictionary : CedictDict) :
    (run_pipeline seg translate rom texts dictionary).data =
      sortByCountDesc ((segment_text seg texts).map (fun p =>
        enrichEntry dictionary
          (transGet (fetch_missing_translations translate
            (missing_words (segment_text seg texts) dictionary)))
          rom p.1 p.2)) := rfl

theorem mem_run_pipeline_data {seg : PyStr → List PyStr} {translate : PyStr → Option PyStr}
    {rom : Cp → PyStr} {texts : List PyStr} {dictionary : CedictDict} {ent : Entry}
    (hent : ent ∈ (run_pipeline seg translate rom texts dictionary).data) :
    ∃ p ∈ segment_text seg texts,
      ent = enrichEntry dictionary
        (transGet (fetch_missing_translations translate
          (missing_words (segment_text seg texts) dictionary)))
        rom p.1 p.2 := by
  rw [run_pipeline_data] at hent
  have hmem := (sortByCountDesc_perm _).mem_iff.mp hent
  rcases List.mem_map.mp hmem with ⟨p, hp, hfp⟩
  exact ⟨p, hp, hfp.symm⟩

theorem length_le_sum : ∀ {l : List Nat}, (∀ x ∈ l, 1 ≤ x) → l.length ≤ l.sum
  | [], _ => by simp
  | x :: xs, h => by
    simp only [List.length_cons, List.sum_cons]
    have h1 := h x (List.mem_cons_self x xs)
    have h2 := length_le_sum (fun y hy => h y (List.mem_cons_of_mem x hy))
    omega

theorem count_perm_eq {l₁ l₂ : List PyStr} (h : l₁.Perm l₂) (a : PyStr) :
    l₁.count a = l₂.count a := by
  unfold List.count
  exact h.countP_eq _

theorem count_eq_one_of_nodup_mem : ∀ {l : List PyStr} {a : PyStr},
    l.Nodup → a ∈ l → l.count a = 1
  | x :: xs, a, hn, ha => by
    obtain ⟨hx, hxs⟩ := List.nodup_cons.mp hn
    rcases List.mem_cons.mp ha with rfl | haxs
    · have hz : xs.count a = 0 := List.count_eq_zero.mpr hx
      simp [List.count_cons, hz]
    · have hxa : x ≠ a := fun h => hx (h ▸ haxs)
      have h1 : xs.count a = 1 := count_eq_one_of_nodup_mem hxs haxs
      simp [List.count_cons, h1, hxa]

/-! ## Claims about the output document -/

/-- C1: every key of the word-count table appears exactly once as a `Word`
in the output data sequence; `total_words` equals the sum of all entries'
`Count` values; `unique_words` equals the number of entries in `data`,
which is the number of distinct filtered tokens. -/
theorem C1_output_invariants (seg : PyStr → List PyStr) (translate : PyStr → Option PyStr)
    (rom : Cp → PyStr) (texts : List PyStr) (dictionary : CedictDict) (w : PyStr)
    (hw : w ∈ (segment_text seg texts).map Prod.fst) :
    ((run_pipeline seg translate rom texts dictionary).data.map Entry.Word).count w = 1
    ∧ (run_pipeline seg translate rom texts dictionary).total_words =
        ((run_pipeline seg translate rom texts dictionary).data.map Entry.Count).sum
    ∧ (run_pipeline seg translate rom texts dictionary).unique_words =
        (run_pipeline seg translate rom texts dictionary).data.length
    ∧ (run_pipeline seg translate rom texts dictionary).unique_words =
        (dedupFirst (filtered_tokens seg texts)).length := by
  have hperm : ((run_pipeline seg translate rom texts dictionary).data).Perm
      ((segment_text seg texts).map (fun p =>
        enrichEntry dictionary
          (transGet (fetch_missing_translations translate
            (missing_words (segment_text seg texts) dictionary)))
          rom p.1 p.2)) := by
    rw [run_pipeline_data]
    exact sortByCountDesc_perm _
  have hwords : ((run_pipeline seg translate rom texts dictionary).data.map Entry.Word).Perm
      ((segment_text seg texts).map Prod.fst) := by
    have hmapW := hperm.map Entry.Word
    have hcongr : (segment_text seg texts).map (Entry.Word ∘ fun p : PyStr × Nat =>
        enrichEntry dictionary
          (transGet (fetch_missing_translations translate
            (missing_words (segment_text seg texts) dictionary)))
          rom p.1 p.2) = (segment_text seg texts).map Prod.fst :=
      List.map_congr_left (fun p _ => by simp [Function.comp_apply, enrichEntry_Word])
    rw [List.map_map, hcongr] at hmapW
    exact hmapW
  refine ⟨?_, ?_, ?_, ?_⟩
  · rw [count_perm_eq hwords]
    have hnodup : ((segment_text seg texts).map Prod.fst).Nodup := by
      rw [segment_text_map_fst]
      exact nodup_dedupFirst _
    exact count_eq_one_of_nodup_mem hnodup hw
  · have hcounts : ((run_pipeline seg translate rom texts dictionary).data.map Entry.Count).Perm
        ((segment_text seg texts).map Prod.snd) := by
      have hmapC := hperm.map Entry.Count
      have hcongr : (segment_text seg texts).map (Entry.Count ∘ fun p : PyStr × Nat =>
          enrichEntry dictionary
            (transGet (fetch_missing_translations translate
              (missing_words (segment_text seg texts) dictionary)))
            rom p.1 p.2) = (segment_text seg texts).map Prod.snd :=
        List.map_congr_left (fun p _ => by simp [Function.comp_apply, enrichEntry_Count])
      rw [List.map_map, hcongr] at hmapC
      exact hmapC
    rw [hcounts.sum_eq]
    rfl
  · show (segment_text seg texts).length = _
    rw [hperm.length_eq, List.length_map]
  · show (segment_text seg texts).length = _
    rw [segment_text, List.length_map]

/-- C2: every output entry whose word is a dictionary headword carries the
entry's meanings joined by the comma separator as its translation and the
entry's stored pinyin verbatim; such a word is never queued for remote
translation, and the conclusion does not depend on the translator. -/
theorem C2_dictionary_hit (seg : PyStr → List PyStr) (translate : PyStr → Option PyStr)
    (rom : Cp → PyStr) (texts : List PyStr) (dictionary : CedictDict)
    (entry : CedictEntry) (ent : Entry)
    (hent : ent ∈ (run_pipeline seg translate rom texts dictionary).data)
    (hdict : dictionary ent.Word = some entry) :
    ent.Translation = joinSep sepComma entry.meanings
    ∧ ent.Pinyin = entry.pinyin
    ∧ ent.Word ∉ missing_words (segment_text seg texts) dictionary := by
  obtain ⟨p, hp, rfl⟩ := mem_run_pipeline_data hent
  rw [enrichEntry_Word] at hdict
  refine ⟨by simp [enrichEntry, hdict], by simp [enrichEntry, hdict], ?_⟩
  rw [enrichEntry_Word]
  intro hmem
  have hnone := (List.mem_filter.mp hmem).2
  simp [hdict] at hnone

/-- C3: the output data sequence is sorted by `Count` descending, and for
every count value the subsequence of entries with that count equals the
enrichment, in iteration order, of the word-count table's pairs with that
count — ties keep the frequency mapping's first-seen order. -/
theorem C3_sorted_stable (seg : PyStr → List PyStr) (translate : PyStr → Option PyStr)
    (rom : Cp → PyStr) (texts : List PyStr) (dictionary : CedictDict) :
    ((run_pipeline seg translate rom texts dictionary).data).Pairwise
      (fun a b => b.Count ≤ a.Count)
    ∧ ∀ n : Nat,
        ((run_pipeline seg translate rom texts dictionary).data).filter
            (fun e => e.Count == n) =
          ((segment_text seg texts).filter (fun p => p.2 == n)).map (fun p =>
            enrichEntry dictionary
              (transGet (fetch_missing_translations translate
                (missing_words (segment_text seg texts) dictionary)))
              rom p.1 p.2) := by
  constructor
  · rw [run_pipeline_data]
    exact sorted_sortByCountDesc _
  · intro n
    rw [run_pipeline_data, filter_sortByCountDesc, List.filter_map]
    congr 1
    exact List.filter_congr (fun p _ => by simp [Function.comp, enrichEntry_Count])

/-- C5: an output entry whose word has no dictionary entry and no fetched
remote translation gets the per-character fallback translation: each
character's meanings joined by the comma separator when the
single-character string is a headword, the placeholder otherwise, the
per-character results joined by the plus separator. -/
theorem C5_per_character_fallback (seg : PyStr → List PyStr) (translate : PyStr → Option PyStr)
    (rom : Cp → PyStr) (texts : List PyStr) (dictionary : CedictDict) (ent : Entry)
    (hent : ent ∈ (run_pipeline seg translate rom texts dictionary).data)
    (hdict : dictionary ent.Word = none)
    (hremote : transGet (fetch_missing_translations translate
        (missing_words (segment_text seg texts) dictionary)) ent.Word = none) :
    ent.Translation = joinSep sepPlus (ent.Word.map (fun char =>
      match dictionary [char] with
      | some char_entry => joinSep sepComma char_entry.meanings
      | none => unknownChar)) := by
  obtain ⟨p, hp, rfl⟩ := mem_run_pipeline_data hent
  rw [enrichEntry_Word] at hdict hremote
  simp [enrichEntry, hdict, hremote, enrichEntry_Word, derive_translation_from_components]

/-- C6: an output entry whose word is not a dictionary headword gets its
pinyin synthesized by romanizing each character of the word in the CJK
range U+4E00 to U+9FFF individually and joining the results with single
spaces; characters outside that range are skipped. -/
theorem C6_pinyin_synthesis (seg : PyStr → List PyStr) (translate : PyStr → Option PyStr)
    (rom : Cp → PyStr) (texts : List PyStr) (dictionary : CedictDict) (ent : Entry)
    (hent : ent ∈ (run_pipeline seg translate rom texts dictionary).data)
    (hdict : dictionary ent.Word = none) :
    ent.Pinyin = joinSep sepSpace ((ent.Word.filter isHanzi).map rom) := by
  obtain ⟨p, hp, rfl⟩ := mem_run_pipeline_data hent
  rw [enrichEntry_Word] at hdict
  simp [enrichEntry, hdict, enrichEntry_Word]

/-- C10: every output entry's count is at least one and its word occurred
as a filtered token of the corpus, and consequently `total_words` is at
least `unique_words`. -/
theorem C10_counts_positive (seg : PyStr → List PyStr) (translate : PyStr → Option PyStr)
    (rom : Cp → PyStr) (texts : List PyStr) (dictionary : CedictDict) (ent : Entry)
    (hent : ent ∈ (run_pipeline seg translate rom texts dictionary).data) :
    1 ≤ ent.Count
    ∧ ent.Word ∈ filtered_tokens seg texts
    ∧ (run_pipeline seg translate rom texts dictionary).unique_words ≤
        (run_pipeline seg translate rom texts dictionary).total_words := by
  obtain ⟨p, hp, rfl⟩ := mem_run_pipeline_data hent
  have hp' : ∃ u ∈ dedupFirst (filtered_tokens seg texts),
      p = (u, (filtered_tokens seg texts).count u) := by
    rcases List.mem_map.mp hp with ⟨u, hu, h⟩
    exact ⟨u, hu, h.symm⟩
  obtain ⟨u, hu, rfl⟩ := hp'
  have humem : u ∈ filtered_tokens seg texts := mem_dedupFirst.mp hu
  refine ⟨?_, ?_, ?_⟩
  · rw [enrichEntry_Count]
    exact List.count_pos_iff.mpr humem
  · rw [enrichEntry_Word]
    exact humem
  · show (segment_text seg texts).length ≤ ((segment_text seg texts).map Prod.snd).sum
    have hpos : ∀ x ∈ (segment_text seg texts).map Prod.snd, 1 ≤ x := by
      intro x hx
      rcases List.mem_map.mp hx with ⟨q, hq, rfl⟩
      rcases List.mem_map.mp hq with ⟨v, hv, rfl⟩
      exact List.count_pos_iff.mpr (mem_dedupFirst.mp hv)
    calc (segment_text seg texts).length
        = ((segment_text seg texts).map Prod.snd).length := (List.length_map _ _).symm
      _ ≤ ((segment_text seg texts).map Prod.snd).sum := length_le_sum hpos

/-! ## Helper lemmas about batching and the translations dict -/

theorem toBatchesF_congr : ∀ (f1 f2 : Nat) (l : List PyStr),
    l.length ≤ f1 → l.length ≤ f2 → toBatchesF f1 l = toBatchesF f2 l
  | f1, f2, [] => by
    intro _ _
    cases f1 <;> cases f2 <;> rfl
  | 0, _, x :: xs => by
    intro h1 _
    simp at h1
  | _ + 1, 0, x :: xs => by
    intro _ h2
    simp at h2
  | f1 + 1, f2 + 1, x :: xs => by
    intro h1 h2
    simp only [List.length_cons] at h1 h2
    simp only [toBatchesF]
    congr 1
    apply toBatchesF_congr
    · rw [List.length_drop, List.length_cons]
      omega
    · rw [List.length_drop, List.length_cons]
      omega

theorem toBatches_cons (x : Cp) (w : PyStr) (xs : List PyStr) :
    toBatches ((x :: w) :: xs) =
      (((x :: w) :: xs).take 100) :: toBatches (((x :: w) :: xs).drop 100) := by
  show toBatchesF ((x :: w) :: xs).length _ = _
  rw [List.length_cons]
  simp only [toBatchesF]
  congr 1
  apply toBatchesF_congr
  · rw [List.length_drop, List.length_cons]
    omega
  · exact Nat.le_refl _

theorem toBatches_cons' (w : PyStr) (xs : List PyStr) :
    toBatches (w :: xs) = ((w :: xs).take 100) :: toBatches ((w :: xs).drop 100) := by
  show toBatchesF (w :: xs).length _ = _
  rw [List.length_cons]
  simp only [toBatchesF]
  congr 1
  apply toBatchesF_congr
  · rw [List.length_drop, List.length_cons]
    omega
  · exact Nat.le_refl _

theorem toBatches_flatten : ∀ l : List PyStr, (toBatches l).flatten = l
  | [] => rfl
  | w :: xs => by
    rw [toBatches_cons', List.flatten_cons, toBatches_flatten ((w :: xs).drop 100),
      List.take_append_drop]
termination_by l => l.length
decreasing_by
  simp only [List.length_drop, List.length_cons]
  omega

theorem eq_of_mem_flatten_nodup : ∀ {L : List (List PyStr)}, L.flatten.Nodup →
    ∀ {l1 l2 : List PyStr}, l1 ∈ L → l2 ∈ L → ∀ {a : PyStr}, a ∈ l1 → a ∈ l2 → l1 = l2
  | [], _, _, _, h1, _, _, _, _ => absurd h1 (by simp)
  | b :: L, h, l1, l2, h1, h2, a, ha1, ha2 => by
    rw [List.flatten_cons] at h
    obtain ⟨hb, hL, hdisj⟩ := List.nodup_append.mp h
    rcases List.mem_cons.mp h1 with rfl | h1' <;> rcases List.mem_cons.mp h2 with rfl | h2'
    · rfl
    · exact absurd (hdisj ha1 (List.mem_flatten.mpr ⟨l2, h2', ha2⟩)) (fun h => h)
    · exact absurd (hdisj ha2 (List.mem_flatten.mpr ⟨l1, h1', ha1⟩)) (fun h => h)
    · exact eq_of_mem_flatten_nodup hL h1' h2' ha1 ha2

theorem nodup_of_mem_flatten_nodup : ∀ {L : List (List PyStr)}, L.flatten.Nodup →
    ∀ {b : List PyStr}, b ∈ L → b.Nodup
  | [], _, _, hb => absurd hb (by simp)
  | c :: L, h, b, hb => by
    rw [List.flatten_cons] at h
    obtain ⟨hc, hL, -⟩ := List.nodup_append.mp h
    rcases List.mem_cons.mp hb with rfl | hb'
    · exact hc
    · exact nodup_of_mem_flatten_nodup hL hb'

theorem transGet_eq_none : ∀ {l : List (PyStr × PyStr)} {w : PyStr},
    (∀ p ∈ l, p.1 ≠ w) → transGet l w = none
  | [], _, _ => rfl
  | p :: rest, w, h => by
    have hrest := transGet_eq_none (fun q hq => h q (List.mem_cons_of_mem p hq))
    have hp : p.1 ≠ w := h p (List.mem_cons_self p rest)
    simp [transGet, hrest, hp]

theorem transGet_mem : ∀ {l : List (PyStr × PyStr)} {w t : PyStr},
    transGet l w = some t → (w, t) ∈ l
  | [], w, t, h => by simp [transGet] at h
  | p :: rest, w, t, h => by
    simp only [transGet] at h
    cases hr : transGet rest w with
    | some t' =>
      rw [hr] at h
      exact List.mem_cons_of_mem p (transGet_mem (hr.trans (by injection h; simp [*])))
    | none =>
      rw [hr] at h
      by_cases hp : p.1 = w
      · rw [if_pos hp] at h
        have hp2 : p.2 = t := by injection h
        have : p = (w, t) := Prod.ext hp hp2
        rw [← this]
        exact List.mem_cons_self p rest
      · rw [if_neg hp] at h
        exact absurd h (by simp)

theorem transGet_isSome_of_mem : ∀ {l : List (PyStr × PyStr)} {w t : PyStr},
    (w, t) ∈ l → (transGet l w).isSome
  | [], _, _, h => absurd h (by simp)
  | p :: rest, w, t, h => by
    simp only [transGet]
    cases hr : transGet rest w with
    | some t' => simp
    | none =>
      rcases List.mem_cons.mp h with heq | hrest
      · have hp1 : p.1 = w := by rw [← heq]
        simp [hp1]
      · have hs := transGet_isSome_of_mem hrest
        rw [hr] at hs
        simp at hs

theorem transGet_eq_some : ∀ {l : List (PyStr × PyStr)} {w t : PyStr},
    (w, t) ∈ l → (∀ p ∈ l, p.1 = w → p.2 = t) → transGet l w = some t
  | [], w, t, hmem, _ => absurd hmem (by simp)
  | p :: rest, w, t, hmem, huniq => by
    simp only [transGet]
    cases hr : transGet rest w with
    | some t' =>
      have htr : (w, t') ∈ rest := transGet_mem hr
      have := huniq (w, t') (List.mem_cons_of_mem p htr) rfl
      simp at this
      rw [this]
    | none =>
      rcases List.mem_cons.mp hmem with heq | hrest
      · have hp1 : p.1 = w := by rw [← heq]
        have hp2 : p.2 = t := huniq p (List.mem_cons_self p rest) hp1
        simp [if_pos hp1, hp2]
      · have hs := transGet_isSome_of_mem hrest
        rw [hr] at hs
        simp at hs

theorem mem_fetchBatches {translate : PyStr → Option PyStr} :
    ∀ (bs : List (List PyStr)) {p : PyStr × PyStr},
    p ∈ fetchBatches translate bs ↔
      ∃ b ∈ bs, ∃ text, translate (joinSep sepNewline b) = some text
        ∧ p ∈ b.zip (text.splitOn 10)
  | [], p => by simp [fetchBatches]
  | b :: bs, p => by
    simp only [fetchBatches, List.mem_append]
    constructor
    · intro h
      rcases h with h | h
      · cases ht : translate (joinSep sepNewline b) with
        | some text =>
          rw [ht] at h
          exact ⟨b, List.mem_cons_self b bs, text, ht, h⟩
        | none =>
          rw [ht] at h
          exact absurd h (by simp)
      · rcases (mem_fetchBatches bs).mp h with ⟨b', hb', text, ht, hz⟩
        exact ⟨b', List.mem_cons_of_mem b hb', text, ht, hz⟩
    · rintro ⟨b', hb', text, ht, hz⟩
      rcases List.mem_cons.mp hb' with rfl | hb''
      · left
        rw [ht]
        exact hz
      · right
        exact (mem_fetchBatches bs).mpr ⟨b', hb'', text, ht, hz⟩

theorem zip_key_unique : ∀ {bk res : List PyStr} {p q : PyStr × PyStr},
    bk.Nodup → p ∈ bk.zip res → q ∈ bk.zip res → p.1 = q.1 → p = q
  | [], _, _, _, _, hp, _, _ => absurd hp (by simp)
  | x :: xs, [], _, _, _, hp, _, _ => absurd hp (by simp)
  | x :: xs, r :: rs, p, q, hn, hp, hq, hkey => by
    obtain ⟨hx, hxs⟩ := List.nodup_cons.mp hn
    rw [List.zip_cons_cons] at hp hq
    obtain ⟨p1, p2⟩ := p
    obtain ⟨q1, q2⟩ := q
    simp only at hkey
    subst hkey
    rcases List.mem_cons.mp hp with hpe | hp' <;> rcases List.mem_cons.mp hq with hqe | hq'
    · rw [hpe, hqe]
    · have hq1 : p1 ∈ xs := (List.of_mem_zip hq').1
      have hp1 : p1 = x := by injection hpe
      rw [hp1] at hq1
      exact absurd hq1 hx
    · have hp1 : p1 ∈ xs := (List.of_mem_zip hp').1
      have hq1 : p1 = x := by injection hqe
      rw [hq1] at hp1
      exact absurd hp1 hx
    · exact zip_key_unique hxs hp' hq' rfl

theorem nodup_missing_words (seg : PyStr → List PyStr) (texts : List PyStr)
    (dictionary : CedictDict) :
    (missing_words (segment_text seg texts) dictionary).Nodup := by
  apply List.Nodup.filter
  rw [segment_text_map_fst]
  exact nodup_dedupFirst _

theorem dict_none_of_mem_missing {wc : List (PyStr × Nat)} {dictionary : CedictDict}
    {w : PyStr} (h : w ∈ missing_words wc dictionary) : dictionary w = none := by
  have := (List.mem_filter.mp h).2
  simpa [Option.isNone_iff_eq_none] using this

/-! ## Claim about batch translation failure -/

/-- C7: when the translation call of one batch raises (modelled by the
translator returning `none` on that batch's newline-joined words), no word
of that batch receives a remote translation, every output entry for such a
word falls back to the per-character derivation, and every other batch
whose call succeeds still has all its zipped pairs recorded — the loop is
not aborted and nothing is retried. -/
theorem C7_batch_failure (seg : PyStr → List PyStr) (translate : PyStr → Option PyStr)
    (rom : Cp → PyStr) (texts : List PyStr) (dictionary : CedictDict)
    (j : Nat) (bj : List PyStr)
    (hj : (toBatches (missing_words (segment_text seg texts) dictionary))[j]? = some bj)
    (hfail : translate (joinSep sepNewline bj) = none) :
    (∀ w ∈ bj, transGet (fetch_missing_translations translate
        (missing_words (segment_text seg texts) dictionary)) w = none)
    ∧ (∀ ent ∈ (run_pipeline seg translate rom texts dictionary).data, ent.Word ∈ bj →
        ent.Translation = derive_translation_from_components ent.Word dictionary)
    ∧ (∀ bk ∈ toBatches (missing_words (segment_text seg texts) dictionary), ∀ text : PyStr,
        translate (joinSep sepNewline bk) = some text →
        ∀ q ∈ bk.zip (text.splitOn 10),
          transGet (fetch_missing_translations translate
            (missing_words (segment_text seg texts) dictionary)) q.1 = some q.2) := by
  have hnodupM : (missing_words (segment_text seg texts) dictionary).Nodup :=
    nodup_missing_words seg texts dictionary
  have hflat : (toBatches (missing_words (segment_text seg texts) dictionary)).flatten =
      missing_words (segment_text seg texts) dictionary :=
    toBatches_flatten _
  have hnodupF : (toBatches (missing_words (segment_text seg texts) dictionary)).flatten.Nodup := by
    rw [hflat]
    exact hnodupM
  have hbjmem : bj ∈ toBatches (missing_words (segment_text seg texts) dictionary) :=
    List.getElem?_mem hj
  have ha : ∀ w ∈ bj, transGet (fetch_missing_translations translate
      (missing_words (segment_text seg texts) dictionary)) w = none := by
    intro w hw
    apply transGet_eq_none
    rintro ⟨w', t'⟩ hq hq1
    simp only at hq1
    rcases (mem_fetchBatches _).mp hq with ⟨b, hb, text, htext, hqz⟩
    have hq1b : w' ∈ b := (List.of_mem_zip hqz).1
    rw [hq1] at hq1b
    have hbeq : b = bj := eq_of_mem_flatten_nodup hnodupF hb hbjmem hq1b hw
    rw [hbeq, hfail] at htext
    exact absurd htext (by simp)
  refine ⟨ha, ?_, ?_⟩
  · intro ent hent hword
    obtain ⟨p, hp, rfl⟩ := mem_run_pipeline_data hent
    rw [enrichEntry_Word] at hword ⊢
    have hmemM : p.1 ∈ missing_words (segment_text seg texts) dictionary := by
      have hmf : p.1 ∈ (toBatches (missing_words (segment_text seg texts) dictionary)).flatten :=
        List.mem_flatten.mpr ⟨bj, hbjmem, hword⟩
      rwa [hflat] at hmf
    have hdict : dictionary p.1 = none := dict_none_of_mem_missing hmemM
    have hnone := ha p.1 hword
    simp [enrichEntry, hdict, hnone]
  · intro bk hbk text htext q hqz
    obtain ⟨w0, t0⟩ := q
    have hw0 : w0 ∈ bk := (List.of_mem_zip hqz).1
    apply transGet_eq_some
    · exact (mem_fetchBatches _).mpr ⟨bk, hbk, text, htext, hqz⟩
    · rintro ⟨w', t'⟩ hq' hq'key
      simp only at hq'key
      subst hq'key
      rcases (mem_fetchBatches _).mp hq' with ⟨b', hb', text', htext', hq'z⟩
      have hw' : w' ∈ b' := (List.of_mem_zip hq'z).1
      have hbb : b' = bk := eq_of_mem_flatten_nodup hnodupF hb' hbk hw' hw0
      rw [hbb] at hq'z htext'
      rw [htext] at htext'
      injection htext' with htt
      rw [← htt] at hq'z
      have hnbk : bk.Nodup := nodup_of_mem_flatten_nodup hnodupF hbk
      have heq := zip_key_unique hnbk hq'z hqz rfl
      injection heq

/-! ## Witnesses: the claim theorems applied at concrete inputs -/

/-- Witness for C1 at the concrete corpus: the word `你好` is a key of the
word-count table and appears exactly once in the output words. -/
theorem C1_output_invariants_witness :
    ([0x4F60, 0x597D] ∈ (segment_text seg0 texts0).map Prod.fst)
    ∧ ((run_pipeline seg0 trans0 rom0 texts0 dict0).data.map Entry.Word).count
        [0x4F60, 0x597D] = 1 :=
  ⟨by decide,
    (C1_output_invariants seg0 trans0 rom0 texts0 dict0 [0x4F60, 0x597D] (by decide)).1⟩

/-- Witness for C2 at the concrete corpus and dictionary containing
`你好`: the output entry carries the entry's meanings and pinyin. -/
theorem C2_dictionary_hit_witness :
    (ent0 ∈ (run_pipeline seg0 trans0 rom0 texts0 dict0).data)
    ∧ dict0 ent0.Word = some entry0
    ∧ (ent0.Translation = joinSep sepComma entry0.meanings
       ∧ ent0.Pinyin = entry0.pinyin
       ∧ ent0.Word ∉ missing_words (segment_text seg0 texts0) dict0) :=
  ⟨by decide, by decide,
    C2_dictionary_hit seg0 trans0 rom0 texts0 dict0 entry0 ent0 (by decide) (by decide)⟩

/-- Witness for C5 at the concrete corpus, the empty dictionary and the
failing translator: the entry's translation is the per-character fallback. -/
theorem C5_per_character_fallback_witness :
    (ent1 ∈ (run_pipeline seg0 trans0 rom0 texts0 dictEmpty).data)
    ∧ dictEmpty ent1.Word = none
    ∧ transGet (fetch_missing_translations trans0
        (missing_words (segment_text seg0 texts0) dictEmpty)) ent1.Word = none
    ∧ ent1.Translation = joinSep sepPlus (ent1.Word.map (fun char =>
        match dictEmpty [char] with
        | some char_entry => joinSep sepComma char_entry.meanings
        | none => unknownChar)) :=
  ⟨by decide, by decide, by decide,
    C5_per_character_fallback seg0 trans0 rom0 texts0 dictEmpty ent1
      (by decide) (by decide) (by decide)⟩

/-- Witness for C6 at the concrete corpus and the empty dictionary: the
entry's pinyin is the per-character synthesis. -/
theorem C6_pinyin_synthesis_witness :
    (ent1 ∈ (run_pipeline seg0 trans0 rom0 texts0 dictEmpty).data)
    ∧ dictEmpty ent1.Word = none
    ∧ ent1.Pinyin = joinSep sepSpace ((ent1.Word.filter isHanzi).map rom0) :=
  ⟨by decide, by decide,
    C6_pinyin_synthesis seg0 trans0 rom0 texts0 dictEmpty ent1 (by decide) (by decide)⟩

/-- Witness for C7 at the concrete corpus with a failing translator: the
single batch fails and its word receives no remote translation. -/
theorem C7_batch_failure_witness :
    ((toBatches (missing_words (segment_text seg0 texts0) dictEmpty))[0]? =
        some [[0x4F60, 0x597D]])
    ∧ trans0 (joinSep sepNewline [[0x4F60, 0x597D]]) = none
    ∧ transGet (fetch_missing_translations trans0
        (missing_words (segment_text seg0 texts0) dictEmpty)) [0x4F60, 0x597D] = none :=
  ⟨by decide, by decide,
    (C7_batch_failure seg0 trans0 rom0 texts0 dictEmpty 0 [[0x4F60, 0x597D]]
      (by decide) (by decide)).1 _ (by decide)⟩

/-- Witness for C8 at the concrete corpus: the token `你好` of the filtered
output is non-empty, not whitespace-only, and starts with a CJK ideograph. -/
theorem C8_token_filter_witness :
    ([0x4F60, 0x597D] ∈ filtered_tokens seg0 texts0)
    ∧ (([0x4F60, 0x597D] : PyStr) ≠ [] ∧ strip [0x4F60, 0x597D] ≠ []
       ∧ startsWithCJK [0x4F60, 0x597D] = true) :=
  ⟨by decide, C8_token_filter seg0 texts0 [0x4F60, 0x597D] (Or.inl (by decide))⟩

/-- Witness for C10 at the concrete corpus: the output entry for `你好`
has a positive count and its word occurred as a filtered token. -/
theorem C10_counts_positive_witness :
    (ent0 ∈ (run_pipeline seg0 trans0 rom0 texts0 dict0).data)
    ∧ (1 ≤ ent0.Count ∧ ent0.Word ∈ filtered_tokens seg0 texts0
       ∧ (run_pipeline seg0 trans0 rom0 texts0 dict0).unique_words ≤
           (run_pipeline seg0 trans0 rom0 texts0 dict0).total_words) :=
  ⟨by decide, C10_counts_positive seg0 trans0 rom0 texts0 dict0 ent0 (by decide)⟩

end WordCount
